import Mathlib

/-!
Shallow embedding of the fs_usage-viz core (log-line parser, time binner,
filter engine, statistics aggregator, and the per-(process, descriptor)
path-activity aggregation) in Lean 4, together with theorems settling the
specification claims about it.

Conventions of the embedding:
* Input text is `List Char`; extracted fields are rebuilt into `String`s.
* JavaScript `Date` values are modelled as integer milliseconds since the
  epoch (`ℤ`).  `new Date()` followed by `setHours/setMinutes/setSeconds/
  setMilliseconds` yields (midnight of the current day) + the set offset,
  so the hidden ambient date is made explicit as a `today : ℤ` parameter
  (milliseconds of the current day's midnight).
* Numeric values that are IEEE doubles in the source (durations, bin
  widths, bin indices) are modelled as exact rationals `ℚ`; integer
  millisecond timestamps are exact in both worlds.
* A JavaScript `Map` is modelled as an association list in insertion
  order, with the source's get/set update pattern mirrored literally.
-/

/-- ASCII whitespace recognised by JavaScript's `\s`, `trim()` and the
whitespace tests used in the source's regexes (the Unicode space classes
never occur in fs_usage output). -/
def isJsSpace (c : Char) : Bool :=
  c = ' ' || c = '\t' || c = '\n' || c = '\r' || c = '\x0b' || c = '\x0c'

/-- JavaScript `\d`. -/
def isDigitC (c : Char) : Bool :=
  '0' ≤ c && c ≤ '9'

/-- JavaScript `[0-9a-fA-F]`. -/
def isHexC (c : Char) : Bool :=
  isDigitC c || ('a' ≤ c && c ≤ 'f') || ('A' ≤ c && c ≤ 'F')

/-- Models `String.prototype.trim()` on a character list. -/
def jsTrim (l : List Char) : List Char :=
  ((l.dropWhile isJsSpace).reverse.dropWhile isJsSpace).reverse

/-- Models `parseInt` on a digit string. -/
def digitsToNat (l : List Char) : Nat :=
  l.foldl (fun n c => n * 10 + (c.toNat - '0'.toNat)) 0

/-- Models `parseFloat` on the two digit groups of a matched `\d+\.\d+`. -/
def ratOfParts (d1 d2 : List Char) : ℚ :=
  (digitsToNat d1 : ℚ) + (digitsToNat d2 : ℚ) / ((10 : ℚ) ^ d2.length)

/-- The parsed record; `timestamp` is the JS `Date` as epoch milliseconds.
Mirrors the `LogEntry` interface of the source. -/
structure LogEntry where
  timestamp : ℤ
  operation : String
  fileDescriptor : Option String
  bytes : Option String
  device : Option String
  path : Option String
  duration : ℚ
  process : String
deriving DecidableEq, Repr

/-- Models `line.match(/^(\d{2}:\d{2}:\d{2}\.\d+)/)`: the matched prefix, if any. -/
def timestampMatch (l : List Char) : Option (List Char) :=
  match l with
  | c1 :: c2 :: c3 :: c4 :: c5 :: c6 :: c7 :: c8 :: c9 :: rest =>
    if isDigitC c1 && isDigitC c2 && c3 = ':' && isDigitC c4 && isDigitC c5 &&
       c6 = ':' && isDigitC c7 && isDigitC c8 && c9 = '.' then
      let frac := rest.takeWhile isDigitC
      if frac.isEmpty then none
      else some (c1 :: c2 :: c3 :: c4 :: c5 :: c6 :: c7 :: c8 :: c9 :: frac)
    else none
  | _ => none

/-- Models `line.match(/^(\S+)/)`: the leading non-whitespace run, if non-empty. -/
def operationMatch (l : List Char) : Option (List Char) :=
  let t := l.takeWhile (fun c => !isJsSpace c)
  if t.isEmpty then none else some t

/-- Models `line.match(/F=(\d+)/)`: left-to-right scan for `F=` followed by at
least one digit; captures the maximal digit run. -/
def fdMatch : List Char → Option (List Char)
  | [] => none
  | 'F' :: rest =>
    match rest with
    | '=' :: rest2 =>
      let d := rest2.takeWhile isDigitC
      if d.isEmpty then fdMatch rest else some d
    | _ => fdMatch rest
  | _ :: rest => fdMatch rest

/-- Models `line.match(/B=(0x[0-9a-fA-F]+|\d+)/)`: left-to-right scan; at each
`B=` the alternatives are tried in order (hex form first, then decimal —
so `B=0xz` captures `0`, as in the JS engine). -/
def bytesMatch : List Char → Option (List Char)
  | [] => none
  | 'B' :: rest =>
    match rest with
    | '=' :: rest2 =>
      match rest2 with
      | '0' :: 'x' :: rest3 =>
        let h := rest3.takeWhile isHexC
        if h.isEmpty then
          -- first alternative fails; `\d+` matches the lone `0`
          some ['0']
        else some ('0' :: 'x' :: h)
      | _ =>
        let d := rest2.takeWhile isDigitC
        if d.isEmpty then bytesMatch rest else some d
    | _ => bytesMatch rest
  | _ :: rest => bytesMatch rest

/-- Models `line.match(/D=(0x[0-9a-fA-F]+)/)`. -/
def deviceMatch : List Char → Option (List Char)
  | [] => none
  | 'D' :: rest =>
    match rest with
    | '=' :: '0' :: 'x' :: rest3 =>
      let h := rest3.takeWhile isHexC
      if h.isEmpty then deviceMatch rest else some ('0' :: 'x' :: h)
    | _ => deviceMatch rest
  | _ :: rest => deviceMatch rest

/-- Models `line.match(/(\d+\.\d+)\s+([^\s]+)\s*$/)`.  Because of the `$` anchor
the match always uses the final token of the line as the process and the
digit runs around the last dot before the final whitespace gap as the
duration; the components are returned as
(integer digits, fractional digits, process characters). -/
def durationMatch (l : List Char) : Option (List Char × List Char × List Char) :=
  let r := l.reverse.dropWhile isJsSpace
  let t := r.takeWhile (fun c => !isJsSpace c)
  let r1 := r.dropWhile (fun c => !isJsSpace c)
  if t.isEmpty then none else
  let w := r1.takeWhile isJsSpace
  let r2 := r1.dropWhile isJsSpace
  if w.isEmpty then none else
  let d2 := r2.takeWhile isDigitC
  let r3 := r2.dropWhile isDigitC
  if d2.isEmpty then none else
  match r3 with
  | '.' :: r4 =>
    let d1 := r4.takeWhile isDigitC
    if d1.isEmpty then none else some (d1.reverse, d2.reverse, t.reverse)
  | _ => none

/-- Prefix test for `\d+\.\d+\s`: one or more digits, a dot, one or
more digits, then a whitespace character (the spec's "trailing
decimal-duration pattern"). -/
def durAnchorAt (l : List Char) : Bool :=
  !(l.takeWhile isDigitC).isEmpty &&
    (match l.dropWhile isDigitC with
     | '.' :: r2 =>
       !(r2.takeWhile isDigitC).isEmpty &&
         (match r2.dropWhile isDigitC with
          | c :: _ => isJsSpace c
          | [] => false)
     | _ => false)

/-- Prefix test for the uncaptured tail `(?:\s+\d+\.\d+\s+)` of the path
regex: mandatory whitespace, a decimal number, then at least one more
whitespace character (the remainder of the line is unconstrained). -/
def matchAnchor (t : List Char) : Bool :=
  !(t.takeWhile isJsSpace).isEmpty && durAnchorAt (t.dropWhile isJsSpace)

/-- Does `\d+\.\d+\s` occur anywhere in the text?  This is the spec's
"trailing decimal-duration pattern (digits, a dot, digits, followed by
whitespace) occurs" predicate, tested at every start position. -/
def hasDurPattern : List Char → Bool
  | [] => false
  | l@(_ :: rest) => durAnchorAt l || hasDurPattern rest

/-- The lazy tail `(?:\s+[^\s\/]+)*?` of the path regex followed by the
duration anchor.  Lazy matching tries the anchor before consuming another
`\s+[^\s\/]+` repetition; the greedy sub-runs inside a repetition are
forced because both possible continuations require whitespace next. -/
def matchLazy (acc t : List Char) : Option (List Char) :=
  if matchAnchor t then some acc
  else
    let w := t.takeWhile isJsSpace
    let u := t.dropWhile isJsSpace
    if hw : w.isEmpty then none
    else
      let x := u.takeWhile (fun c => !isJsSpace c && c != '/')
      if x.isEmpty then none
      else matchLazy (acc ++ w ++ x) (u.drop x.length)
termination_by t.length
decreasing_by
  simp only [List.length_drop]
  have h1 := congrArg List.length (List.takeWhile_append_dropWhile isJsSpace t)
  simp only [List.length_append] at h1
  have hw1 : 0 < (List.takeWhile isJsSpace t).length := by
    simp only [List.isEmpty_iff] at hw
    rcases hm : List.takeWhile isJsSpace t with _ | ⟨a, as⟩
    · exact absurd hm hw
    · simp
  omega

/-- Does the maximal non-whitespace run contain a `/` followed by at least
one further character of the run?  This is exactly the condition under
which `\S*\/[^\s]+` can consume the run (the greedy quantifiers force the
group's first chunk to be the entire run). -/
def runQualifies : List Char → Bool
  | [] => false
  | c :: rest => (c = '/' && !rest.isEmpty) || runQualifies rest

/-- Models `line.match(/(\S*\/[^\s]+(?:\s+[^\s\/]+)*?)(?:\s+\d+\.\d+\s+)/)`:
left-to-right scan over start positions; at each position the greedy
head can succeed only by consuming the whole current non-whitespace run,
after which the lazy tail extends the capture token by token until the
duration anchor matches.  Returns capture group 1. -/
def pathMatchCore : List Char → Option (List Char)
  | [] => none
  | l@(_ :: rest) =>
    let run := l.takeWhile (fun c => !isJsSpace c)
    let tl := l.dropWhile (fun c => !isJsSpace c)
    match (if runQualifies run then matchLazy run tl else none) with
    | some p => some p
    | none => pathMatchCore rest

/-- The pipeline prefix of `parseLine` shared by several theorems: trim,
match and strip the timestamp, match and strip the operation.  Returns
(timestamp text, operation text, remaining line). -/
def splitLine (line : List Char) : Option (List Char × List Char × List Char) :=
  let l := jsTrim line
  if l.isEmpty then none else
  match timestampMatch l with
  | none => none
  | some ts =>
    let l1 := jsTrim (l.drop ts.length)
    match operationMatch l1 with
    | none => none
    | some op => some (ts, op, jsTrim (l1.drop op.length))

/-- The `setHours/setMinutes/setSeconds/setMilliseconds` offset, in
milliseconds, extracted from the matched timestamp text exactly as the
source does (`split(':')`, `split('.')`, `slice(0, 3)`); on the fixed
shape `HH:MM:SS.d+` the splits are the fixed slices used here. -/
def tsOffsetMs (ts : List Char) : ℤ :=
  let h := digitsToNat (ts.take 2)
  let m := digitsToNat ((ts.drop 3).take 2)
  let s := digitsToNat ((ts.drop 6).take 2)
  let ms := digitsToNat ((ts.drop 9).take 3)
  ((h * 3600000 + m * 60000 + s * 1000 + ms : Nat) : ℤ)

/-- Builds the returned record from the matched pieces; `today` is the
epoch-millisecond value of the ambient day's midnight injected by
`new Date()`. -/
def mkEntry (today : ℤ) (ts op l2 : List Char) : LogEntry :=
  { timestamp := today + tsOffsetMs ts
    operation := String.mk op
    fileDescriptor := (fdMatch l2).map String.mk
    bytes := (bytesMatch l2).map String.mk
    device := (deviceMatch l2).map String.mk
    path := (pathMatchCore l2).map (fun p => String.mk (jsTrim p))
    duration :=
      match durationMatch l2 with
      | some (d1, d2, _) => ratOfParts d1 d2
      | none => 0
    process :=
      match durationMatch l2 with
      | some (_, _, p) => String.mk p
      | none => "unknown" }

/-- Models `parseLine` of the source; the hidden current date is the explicit
`today` parameter. -/
def parseLine (today : ℤ) (line : List Char) : Option LogEntry :=
  (splitLine line).map (fun x => mkEntry today x.1 x.2.1 x.2.2)

/-- Models `entries.reduce((min, e) => (e.timestamp < min ? e.timestamp : min), entries[0].timestamp)`. -/
def jsMinTimestamp (entries : List LogEntry) (init : ℤ) : ℤ :=
  entries.foldl (fun m e => if e.timestamp < m then e.timestamp else m) init

/-- Models `entries.reduce((max, e) => (e.timestamp > max ? e.timestamp : max), entries[0].timestamp)`. -/
def jsMaxTimestamp (entries : List LogEntry) (init : ℤ) : ℤ :=
  entries.foldl (fun m e => if e.timestamp > m then e.timestamp else m) init

/-- Models `Math.floor(elapsed / binSizeSeconds)` for one entry, with
`elapsed = (entry.timestamp.getTime() - minTime.getTime()) / 1000`. -/
def binIndexOf (t0 : ℤ) (w : ℚ) (e : LogEntry) : ℤ :=
  ⌊(((e.timestamp : ℚ) - (t0 : ℚ)) / 1000) / w⌋

/-- Models `minTime.getTime() + binIndex * binSizeSeconds * 1000` (milliseconds). -/
def binStartOf (t0 : ℤ) (w : ℚ) (e : LogEntry) : ℚ :=
  (t0 : ℚ) + (binIndexOf t0 w e : ℚ) * w * 1000

/-- Models `bins.get(key).push(entry)` with `set(key, [])` on a missing key: the
insertion-ordered JS `Map` as an association list. -/
def mapInsertPush (k : ℚ) (e : LogEntry) :
    List (ℚ × List LogEntry) → List (ℚ × List LogEntry)
  | [] => [(k, [e])]
  | p :: rest =>
    if p.1 = k then (p.1, p.2 ++ [e]) :: rest else p :: mapInsertPush k e rest

/-- Models `binByTime` of the source.  The final re-wrap of the numeric keys into
`Date` objects is key-content preserving and is elided (our keys already
stand for those instants). -/
def binByTime (entries : List LogEntry) (binSizeSeconds : ℚ) :
    List (ℚ × List LogEntry) :=
  match entries with
  | [] => []
  | e0 :: _ =>
    let t0 := jsMinTimestamp entries e0.timestamp
    entries.foldl (fun bins e => mapInsertPush (binStartOf t0 binSizeSeconds e) e bins) []

/-- Models `filterByFileDescriptor` of the source: strict `===` comparison of the
(possibly null) field against the given string. -/
def filterByFileDescriptor (entries : List LogEntry) (fd : String) : List LogEntry :=
  entries.filter (fun e => e.fileDescriptor = some fd)

/-- JS truthiness of a `string | null` field: `null` and `""` are falsy. -/
def truthy (s : Option String) : Bool :=
  match s with
  | some v => v ≠ ""
  | none => false

/-- Models `filterByPath` of the source (case-sensitive branch uses plain
`includes`; the default branch lowercases both sides). -/
def filterByPath (entries : List LogEntry) (pathPattern : String)
    (caseSensitive : Bool := false) : List LogEntry :=
  if caseSensitive then
    entries.filter (fun e => truthy e.path &&
      decide (pathPattern.data <:+: (e.path.getD "").data))
  else
    entries.filter (fun e => truthy e.path &&
      decide ((pathPattern.data.map Char.toLower) <:+: ((e.path.getD "").data.map Char.toLower)))

/-- Models `map.set(key, (map.get(key) || 0) + 1)` on an insertion-ordered map. -/
def bumpCount (k : String) : List (String × Nat) → List (String × Nat)
  | [] => [(k, 1)]
  | p :: rest =>
    if p.1 = k then (p.1, p.2 + 1) :: rest else p :: bumpCount k rest

/-- The `operationCounts` map: every entry is counted. -/
def operationCountsMap (entries : List LogEntry) : List (String × Nat) :=
  entries.foldl (fun m e => bumpCount e.operation m) []

/-- The `fdCounts` map: guarded by `if (e.fileDescriptor)`, so `null` and
the empty string are skipped (JS truthiness). -/
def fdCountsMap (entries : List LogEntry) : List (String × Nat) :=
  entries.foldl (fun m e =>
    if truthy e.fileDescriptor then bumpCount (e.fileDescriptor.getD "") m else m) []

/-- The `pathCounts` map: guarded by `if (e.path)`. -/
def pathCountsMap (entries : List LogEntry) : List (String × Nat) :=
  entries.foldl (fun m e =>
    if truthy e.path then bumpCount (e.path.getD "") m else m) []

/-- Models `.sort((a, b) => b[1] - a[1])`: a stable sort, descending by count
(insertion sort is used here because a stable sort is extensionally
unique for a given total preorder). -/
def sortByCountDesc (l : List (String × Nat)) : List (String × Nat) :=
  l.insertionSort (fun a b => b.2 ≤ a.2)

/-- Fold computing `minDuration` starting from `Infinity`; `none` plays
the role of the `Infinity` sentinel (any value compares below it). -/
def foldMinQ (l : List ℚ) : Option ℚ :=
  l.foldl (fun m d =>
    match m with
    | none => some d
    | some m0 => if d < m0 then some d else some m0) none

/-- Fold computing `maxDuration` starting from `-Infinity`. -/
def foldMaxQ (l : List ℚ) : Option ℚ :=
  l.foldl (fun m d =>
    match m with
    | none => some d
    | some m0 => if d > m0 then some d else some m0) none

/-- The record returned by `getSummaryStats` (non-empty case). -/
structure SummaryStats where
  totalEntries : Nat
  minTime : ℤ
  maxTime : ℤ
  durationSeconds : ℚ
  operationCounts : List (String × Nat)
  allOperationCounts : List (String × Nat)
  fdCounts : List (String × Nat)
  allFdCounts : List (String × Nat)
  pathCounts : List (String × Nat)
  allPathCounts : List (String × Nat)
  uniqueOperations : Nat
  uniqueFds : Nat
  entriesWithPath : Nat
  minDuration : Option ℚ
  maxDuration : Option ℚ
  avgDuration : ℚ
deriving DecidableEq, Repr

/-- Models `getSummaryStats` of the source; `null` on the empty collection. -/
def getSummaryStats (entries : List LogEntry) : Option SummaryStats :=
  match entries with
  | [] => none
  | e0 :: _ =>
    let minTime := jsMinTimestamp entries e0.timestamp
    let maxTime := jsMaxTimestamp entries e0.timestamp
    let opCounts := operationCountsMap entries
    let fdCounts := fdCountsMap entries
    let pathCounts := pathCountsMap entries
    let durations := entries.map (fun e => e.duration)
    let sumDuration := durations.sum
    some
      { totalEntries := entries.length
        minTime := minTime
        maxTime := maxTime
        durationSeconds := ((maxTime : ℚ) - (minTime : ℚ)) / 1000
        operationCounts := (sortByCountDesc opCounts).take 10
        allOperationCounts := sortByCountDesc opCounts
        fdCounts := (sortByCountDesc fdCounts).take 10
        allFdCounts := sortByCountDesc fdCounts
        pathCounts := (sortByCountDesc pathCounts).take 10
        allPathCounts := sortByCountDesc pathCounts
        uniqueOperations := opCounts.length
        uniqueFds := fdCounts.length
        entriesWithPath := pathCounts.length
        minDuration := (foldMinQ durations).map (fun q => q * 1000)
        maxDuration := (foldMaxQ durations).map (fun q => q * 1000)
        avgDuration :=
          (if durations.length > 0 then sumDuration / (durations.length : ℚ) else 0) * 1000 }

/-- The per-path record of `buildFdToPathsMap` (`PathInfo`). -/
structure PathInfo where
  path : String
  count : Nat
  firstSeen : ℤ
  lastSeen : ℤ
deriving DecidableEq, Repr

/-- One `buildFdToPathsMap` update of the inner path map: bump the count
and widen the first/last-seen window, or insert a fresh record. -/
def updatePathInfo (ts : ℤ) (p : String) :
    List (String × PathInfo) → List (String × PathInfo)
  | [] => [(p, ⟨p, 1, ts, ts⟩)]
  | q :: rest =>
    if q.1 = p then
      (q.1,
        { q.2 with
          count := q.2.count + 1
          lastSeen := if ts > q.2.lastSeen then ts else q.2.lastSeen
          firstSeen := if ts < q.2.firstSeen then ts else q.2.firstSeen }) :: rest
    else q :: updatePathInfo ts p rest

/-- Outer update of `processFdMap`: create the inner map for a missing
`process::fd` key, then update it in place. -/
def pfInsert (key : String) (ts : ℤ) (p : String) :
    List (String × List (String × PathInfo)) →
    List (String × List (String × PathInfo))
  | [] => [(key, updatePathInfo ts p [])]
  | q :: rest =>
    if q.1 = key then (q.1, updatePathInfo ts p q.2) :: rest
    else q :: pfInsert key ts p rest

/-- The `process::fd` key of an entry (``${entry.process}::${entry.fileDescriptor}``). -/
def pfKey (process fd : String) : String :=
  process ++ "::" ++ fd

/-- Stable sort of the collected paths, descending by count
(`.sort((a, b) => b.count - a.count)`). -/
def sortPathInfosDesc (l : List PathInfo) : List PathInfo :=
  l.insertionSort (fun a b => b.count ≤ a.count)

/-- Models `buildFdToPathsMap` of `SummaryStats.svelte`: entries lacking a truthy
file descriptor or path are skipped; the rest are grouped under the
`process::fd` string key; finally each group is re-labelled by
`key.split('::')` (first two components) with its paths sorted by
descending count. -/
def buildFdToPathsMap (entries : List LogEntry) :
    List (String × String × String × List PathInfo) :=
  let m := entries.foldl (fun acc e =>
    if truthy e.fileDescriptor && truthy e.path then
      pfInsert (pfKey e.process (e.fileDescriptor.getD "")) e.timestamp
        (e.path.getD "") acc
    else acc) []
  m.map (fun q =>
    let parts := q.1.splitOn "::"
    (q.1, parts.getD 0 "", parts.getD 1 "", sortPathInfosDesc (q.2.map (fun r => r.2))))

/-! ### Sample data used by witnesses and counterexamples -/

/-- A concrete syntactically valid fs_usage line. -/
def sampleLine : List Char :=
  "00:00:01.5 open F=3 /u/f.txt 0.25 procA".data

/-- A concrete line whose tail lacks the duration/process pattern. -/
def sampleLineNoTail : List Char :=
  "01:02:03.4 open /x".data

/-- Concrete entries at 0 ms and 1000 ms. -/
def entryT0 : LogEntry := ⟨0, "open", none, none, none, none, 0, "p"⟩

def entryT1 : LogEntry := ⟨1000, "read", none, none, none, none, 0, "p"⟩

def entryT2 : LogEntry := ⟨2200, "stat", none, none, none, none, 0, "p"⟩

/-- An entry whose `fileDescriptor` is the empty string: non-null, but
falsy in JavaScript. -/
def entryEmptyFd : LogEntry := ⟨0, "open", some "", none, none, none, 0, "p"⟩

/-- Entries sharing descriptor "5" with different processes. -/
def entryProcA : LogEntry := ⟨0, "open", some "5", none, none, some "/x", 0, "A"⟩

def entryProcB : LogEntry := ⟨1, "open", some "5", none, none, some "/x", 0, "B"⟩

def entryFd7 : LogEntry := ⟨0, "open", some "7", none, none, none, 0, "p"⟩

/-! ### C1: determinism of `parseLine` -/

/-- C1 (counterexample): `parseLine` reads the ambient current date when
building the timestamp (`new Date()`), so the same line parsed under two
different current dates (midnight 0 ms vs. one day later) yields
different outputs. -/
theorem parseLine_not_date_independent :
    parseLine 0 sampleLine ≠ parseLine 86400000 sampleLine := by
  decide

/-- C1 (amended): `parseLine` is deterministic relative to the ambient
current date: after subtracting the injected midnight value from the
timestamp, the result is a function of the input line alone — every field
except the timestamp's date component is date-independent, and for a
fixed current date identical input yields identical output. -/
theorem parseLine_deterministic_modulo_date (d1 d2 : ℤ) (line : List Char) :
    (parseLine d1 line).map (fun e => { e with timestamp := e.timestamp - d1 }) =
    (parseLine d2 line).map (fun e => { e with timestamp := e.timestamp - d2 }) := by
  cases h : splitLine line with
  | none => simp [parseLine, h]
  | some x => simp [parseLine, h, mkEntry]

/-! ### Binning: shared helpers -/

/-- Total number of entries across all bins. -/
def binsTotal (bins : List (ℚ × List LogEntry)) : Nat :=
  (bins.map (fun b => b.2.length)).sum

theorem binsTotal_insertPush (k : ℚ) (e : LogEntry)
    (m : List (ℚ × List LogEntry)) :
    binsTotal (mapInsertPush k e m) = binsTotal m + 1 := by
  induction m with
  | nil => simp [mapInsertPush, binsTotal]
  | cons p rest ih =>
    by_cases h : p.1 = k
    · simp [mapInsertPush, h, binsTotal]
      omega
    · simp only [mapInsertPush, if_neg h, binsTotal, List.map_cons, List.sum_cons] at ih ⊢
      omega

theorem binsTotal_fold (f : LogEntry → ℚ) (E : List LogEntry) :
    ∀ m, binsTotal (E.foldl (fun bins e => mapInsertPush (f e) e bins) m)
      = binsTotal m + E.length := by
  induction E with
  | nil => intro m; simp
  | cons e rest ih =>
    intro m
    simp only [List.foldl_cons, List.length_cons]
    rw [ih, binsTotal_insertPush]
    omega

/-! ### C3: binning partitions the collection -/

/-- C3: for every entry collection and positive bin width, `binByTime`
partitions the collection — the bin sizes sum to the collection's length
(nothing dropped, nothing duplicated) — and the empty collection yields
the empty mapping. -/
theorem binByTime_partitions (E : List LogEntry) (w : ℚ) (hw : 0 < w) :
    binsTotal (binByTime E w) = E.length ∧ binByTime ([] : List LogEntry) w = [] := by
  constructor
  · cases E with
    | nil => simp [binByTime, binsTotal]
    | cons e0 rest =>
      rw [binByTime]
      rw [binsTotal_fold]
      simp [binsTotal]
  · rfl

/-- C3 witness at a concrete collection and width. -/
theorem binByTime_partitions_witness :
    binsTotal (binByTime [entryT0, entryT1, entryT2] 1) = 3 ∧
    binByTime ([] : List LogEntry) 1 = [] :=
  binByTime_partitions [entryT0, entryT1, entryT2] 1 (by norm_num)

/-! ### C2: non-positive bin widths are not rejected -/

/-- C2 (counterexample): with bin width `-1` the code does not fail: it
silently returns an ordinary grouping, and the second entry's bin index
`Math.floor(elapsed / binSizeSeconds)` is the negative number `-1`. -/
theorem binByTime_negative_width_no_error :
    binByTime [entryT0, entryT1] (-1) = [(0, [entryT0]), (1000, [entryT1])] ∧
    binIndexOf 0 (-1) entryT1 = -1 := by
  norm_num [binByTime, jsMinTimestamp, binStartOf, binIndexOf, mapInsertPush,
    entryT0, entryT1]

/-- C2 (amended): `binByTime` performs no validation of the bin width.
For every non-empty collection and negative width it silently returns a
non-empty grouping — computed from floor-division bin indices, which are
negative for entries after the minimum timestamp — rather than failing
with a caller-visible error.  (A width of exactly zero additionally
involves IEEE `NaN` keys in the source, equally silently.) -/
theorem binByTime_negative_width_silent (E : List LogEntry) (w : ℚ)
    (hw : w < 0) (hne : E ≠ []) :
    binsTotal (binByTime E w) = E.length ∧ binByTime E w ≠ [] := by
  have htot : binsTotal (binByTime E w) = E.length := by
    cases E with
    | nil => simp at hne
    | cons e0 rest =>
      rw [binByTime, binsTotal_fold]
      simp [binsTotal]
  refine ⟨htot, ?_⟩
  intro hempty
  rw [hempty] at htot
  simp [binsTotal] at htot
  exact hne (List.length_eq_zero.mp htot.symm)

/-- C2 amended-claim witness at a concrete collection and width. -/
theorem binByTime_negative_width_silent_witness :
    binsTotal (binByTime [entryT0, entryT1] (-1)) = 2 ∧
    binByTime [entryT0, entryT1] (-1) ≠ [] :=
  binByTime_negative_width_silent [entryT0, entryT1] (-1) (by norm_num) (by decide)

/-! ### C4: every binned entry lies in its bin's interval -/

theorem mapInsertPush_inv (P : ℚ → LogEntry → Prop) (k : ℚ) (e : LogEntry)
    (m : List (ℚ × List LogEntry))
    (hm : ∀ q ∈ m, ∀ x ∈ q.2, P q.1 x) (hk : P k e) :
    ∀ q ∈ mapInsertPush k e m, ∀ x ∈ q.2, P q.1 x := by
  induction m with
  | nil =>
    intro q hq x hx
    simp only [mapInsertPush, List.mem_singleton] at hq
    subst hq
    rw [List.mem_singleton] at hx
    subst hx
    exact hk
  | cons p rest ih =>
    intro q hq x hx
    simp only [mapInsertPush] at hq
    by_cases h : p.1 = k
    · rw [if_pos h] at hq
      rcases List.mem_cons.mp hq with rfl | hq2
      · rcases List.mem_append.mp hx with hx1 | hx1
        · exact hm p (List.mem_cons_self p rest) x hx1
        · rw [List.mem_singleton] at hx1
          subst hx1
          simpa [h] using hk
      · exact hm q (List.mem_cons_of_mem p hq2) x hx
    · rw [if_neg h] at hq
      rcases List.mem_cons.mp hq with rfl | hq2
      · exact hm q (List.mem_cons_self q rest) x hx
      · exact ih (fun r hr => hm r (List.mem_cons_of_mem p hr)) q hq2 x hx

theorem binFold_inv (P : ℚ → LogEntry → Prop) (f : LogEntry → ℚ)
    (E : List LogEntry) (hE : ∀ e ∈ E, P (f e) e) :
    ∀ m, (∀ q ∈ m, ∀ x ∈ q.2, P q.1 x) →
    ∀ q ∈ E.foldl (fun bins e => mapInsertPush (f e) e bins) m, ∀ x ∈ q.2, P q.1 x := by
  induction E with
  | nil => intro m hm; simpa using hm
  | cons e rest ih =>
    intro m hm
    simp only [List.foldl_cons]
    exact ih (fun x hx => hE x (by simp [hx]))
      (mapInsertPush (f e) e m)
      (mapInsertPush_inv P (f e) e m hm (hE e (by simp)))

theorem binStart_bounds (t0 : ℤ) (w : ℚ) (hw : 0 < w) (e : LogEntry) :
    binStartOf t0 w e ≤ (e.timestamp : ℚ) ∧
    (e.timestamp : ℚ) < binStartOf t0 w e + w * 1000 := by
  set q : ℚ := (((e.timestamp : ℚ) - (t0 : ℚ)) / 1000) with hq
  have hq1000 : q * 1000 = (e.timestamp : ℚ) - (t0 : ℚ) := by
    rw [hq]; field_simp
  have h1 : ((⌊q / w⌋ : ℤ) : ℚ) ≤ q / w := Int.floor_le _
  have h2 : q / w < ((⌊q / w⌋ : ℤ) : ℚ) + 1 := Int.lt_floor_add_one _
  have hwne : w ≠ 0 := ne_of_gt hw
  have h1' : ((⌊q / w⌋ : ℤ) : ℚ) * w ≤ q := by
    have := mul_le_mul_of_nonneg_right h1 (le_of_lt hw)
    rwa [div_mul_cancel₀ _ hwne] at this
  have h2' : q < (((⌊q / w⌋ : ℤ) : ℚ) + 1) * w := by
    have := (div_lt_iff₀ hw).mp h2
    exact this
  have hexp : (((⌊q / w⌋ : ℤ) : ℚ) + 1) * w = ((⌊q / w⌋ : ℤ) : ℚ) * w + w := by ring
  rw [hexp] at h2'
  unfold binStartOf binIndexOf
  rw [← hq]
  constructor
  · nlinarith [h1']
  · nlinarith [h2']

/-- C4: for every collection and positive bin width `w` (seconds), every
entry placed by `binByTime` into the bin with start instant `b.1`
(milliseconds) has `b.1 ≤ timestamp` and `timestamp < b.1 + w * 1000`. -/
theorem binByTime_entry_in_bin (E : List LogEntry) (w : ℚ) (hw : 0 < w)
    (b : ℚ × List LogEntry) (hb : b ∈ binByTime E w)
    (e : LogEntry) (he : e ∈ b.2) :
    b.1 ≤ (e.timestamp : ℚ) ∧ (e.timestamp : ℚ) < b.1 + w * 1000 := by
  cases E with
  | nil => simp [binByTime] at hb
  | cons e0 rest =>
    rw [binByTime] at hb
    have := binFold_inv
      (fun k x => k ≤ (x.timestamp : ℚ) ∧ (x.timestamp : ℚ) < k + w * 1000)
      (fun e => binStartOf (jsMinTimestamp (e0 :: rest) e0.timestamp) w e)
      (e0 :: rest)
      (fun x _ => binStart_bounds (jsMinTimestamp (e0 :: rest) e0.timestamp) w hw x)
      [] (by simp) b hb e he
    exact this

/-- C4 witness: a concrete collection, width 1 s, the second bin, its entry. -/
theorem binByTime_entry_in_bin_witness :
    (2000, [entryT2]) ∈ binByTime [entryT0, entryT1, entryT2] 1 ∧
    (2000 : ℚ) ≤ (entryT2.timestamp : ℚ) ∧
    (entryT2.timestamp : ℚ) < 2000 + 1 * 1000 := by
  have hb : ((2000 : ℚ), [entryT2]) ∈ binByTime [entryT0, entryT1, entryT2] 1 := by
    norm_num [binByTime, jsMinTimestamp, binStartOf, binIndexOf, mapInsertPush,
      entryT0, entryT1, entryT2]
  exact ⟨hb, binByTime_entry_in_bin [entryT0, entryT1, entryT2] 1 (by norm_num)
    (2000, [entryT2]) hb entryT2 (by simp)⟩

/-! ### C5: absent summary on empty input; total count otherwise -/

/-- C5: `getSummaryStats` returns the distinguishable absent value `none`
on the empty collection (not a zeroed record), and on every non-empty
collection returns a record whose `totalEntries` is the collection's
length. -/
theorem getSummaryStats_empty_absent_total (E : List LogEntry) (hE : E ≠ []) :
    getSummaryStats ([] : List LogEntry) = none ∧
    ∃ s, getSummaryStats E = some s ∧ s.totalEntries = E.length := by
  refine ⟨rfl, ?_⟩
  cases E with
  | nil => exact absurd rfl hE
  | cons e0 rest => exact ⟨_, rfl, rfl⟩

/-- C5 witness at a concrete singleton collection. -/
theorem getSummaryStats_empty_absent_total_witness :
    getSummaryStats ([] : List LogEntry) = none ∧
    ∃ s, getSummaryStats [entryT0] = some s ∧ s.totalEntries = [entryT0].length :=
  getSummaryStats_empty_absent_total [entryT0] (by simp)

/-! ### C8: file-descriptor filter is a sublist-selecting idempotent filter -/

/-- C8: `filterByFileDescriptor E fd` is a subsequence of `E`, every
element of the result has `fileDescriptor` string-equal to `fd` (strict
`===`: `null` never matches), and the filter is idempotent. -/
theorem filterByFileDescriptor_props (E : List LogEntry) (fd : String) :
    (filterByFileDescriptor E fd).Sublist E ∧
    (∀ e ∈ filterByFileDescriptor E fd, e.fileDescriptor = some fd) ∧
    filterByFileDescriptor (filterByFileDescriptor E fd) fd =
      filterByFileDescriptor E fd := by
  refine ⟨List.filter_sublist E, ?_, ?_⟩
  · intro e he
    have h := List.of_mem_filter he
    simpa using h
  · apply List.filter_eq_self.mpr
    intro e he
    have h := List.of_mem_filter he
    simpa using h

/-- C8 witness at a concrete collection and descriptor value. -/
theorem filterByFileDescriptor_props_witness :
    (filterByFileDescriptor [entryFd7, entryT0] "7").Sublist [entryFd7, entryT0] ∧
    (∀ e ∈ filterByFileDescriptor [entryFd7, entryT0] "7",
      e.fileDescriptor = some "7") ∧
    filterByFileDescriptor (filterByFileDescriptor [entryFd7, entryT0] "7") "7" =
      filterByFileDescriptor [entryFd7, entryT0] "7" :=
  filterByFileDescriptor_props [entryFd7, entryT0] "7"

/-! ### C9: frequency-table counts -/

/-- Sum of the occurrence counts in a frequency table. -/
def countsSum (m : List (String × Nat)) : Nat :=
  (m.map (fun p => p.2)).sum

theorem countsSum_bump (k : String) (m : List (String × Nat)) :
    countsSum (bumpCount k m) = countsSum m + 1 := by
  induction m with
  | nil => simp [bumpCount, countsSum]
  | cons p rest ih =>
    by_cases h : p.1 = k
    · simp [bumpCount, h, countsSum]
      omega
    · simp only [bumpCount, if_neg h, countsSum, List.map_cons, List.sum_cons] at ih ⊢
      omega

theorem countsSum_opFold (E : List LogEntry) :
    ∀ m, countsSum (E.foldl (fun m e => bumpCount e.operation m) m)
      = countsSum m + E.length := by
  induction E with
  | nil => intro m; simp
  | cons e rest ih =>
    intro m
    simp only [List.foldl_cons, List.length_cons]
    rw [ih, countsSum_bump]
    omega

theorem countsSum_condFold (p : LogEntry → Bool) (key : LogEntry → String)
    (E : List LogEntry) :
    ∀ m, countsSum (E.foldl (fun m e => if p e then bumpCount (key e) m else m) m)
      = countsSum m + (E.filter p).length := by
  induction E with
  | nil => intro m; simp
  | cons e rest ih =>
    intro m
    simp only [List.foldl_cons]
    by_cases h : p e
    · rw [if_pos h, ih, countsSum_bump]
      simp [List.filter_cons, h]
      omega
    · rw [if_neg h, ih]
      simp [List.filter_cons, h]

theorem countsSum_sortByCountDesc (m : List (String × Nat)) :
    countsSum (sortByCountDesc m) = countsSum m :=
  List.Perm.sum_eq (List.Perm.map _ (List.perm_insertionSort _ m))

/-- C9 (counterexample): the `fdCounts` loop is guarded by JavaScript
truthiness, so an entry whose `fileDescriptor` is the non-null empty
string is not counted: its fd-count sum is 0 while the number of entries
with non-null `fileDescriptor` is 1. -/
theorem getSummaryStats_fdCounts_truthiness_gap :
    ∃ s, getSummaryStats [entryEmptyFd] = some s ∧
      countsSum s.allFdCounts = 0 ∧
      ([entryEmptyFd].filter (fun e => e.fileDescriptor ≠ none)).length = 1 := by
  refine ⟨_, rfl, ?_, by decide⟩
  decide

/-- C9 (amended): for every non-empty collection the counts in the full
ranked frequency tables sum to: operations — the total entry count;
file descriptors — the number of entries whose `fileDescriptor` is a
non-empty string (JS-truthy, not merely non-null); paths — likewise for
`path`.  The truncated top-10 views are prefixes of these tables. -/
theorem getSummaryStats_counts_sums (E : List LogEntry) (hE : E ≠ []) :
    ∃ s, getSummaryStats E = some s ∧
      countsSum s.allOperationCounts = E.length ∧
      countsSum s.allFdCounts = (E.filter (fun e => truthy e.fileDescriptor)).length ∧
      countsSum s.allPathCounts = (E.filter (fun e => truthy e.path)).length := by
  cases E with
  | nil => exact absurd rfl hE
  | cons e0 rest =>
    refine ⟨_, rfl, ?_, ?_, ?_⟩
    · show countsSum (sortByCountDesc (operationCountsMap (e0 :: rest))) = _
      rw [countsSum_sortByCountDesc]
      unfold operationCountsMap
      rw [countsSum_opFold]
      simp [countsSum]
    · show countsSum (sortByCountDesc (fdCountsMap (e0 :: rest))) = _
      rw [countsSum_sortByCountDesc]
      unfold fdCountsMap
      rw [countsSum_condFold (fun e => truthy e.fileDescriptor)
        (fun e => e.fileDescriptor.getD "")]
      simp [countsSum]
    · show countsSum (sortByCountDesc (pathCountsMap (e0 :: rest))) = _
      rw [countsSum_sortByCountDesc]
      unfold pathCountsMap
      rw [countsSum_condFold (fun e => truthy e.path) (fun e => e.path.getD "")]
      simp [countsSum]

/-- C9 amended-claim witness at a concrete mixed collection. -/
theorem getSummaryStats_counts_sums_witness :
    ∃ s, getSummaryStats [entryFd7, entryProcA, entryT0] = some s ∧
      countsSum s.allOperationCounts = 3 ∧
      countsSum s.allFdCounts =
        ([entryFd7, entryProcA, entryT0].filter
          (fun e => truthy e.fileDescriptor)).length ∧
      countsSum s.allPathCounts =
        ([entryFd7, entryProcA, entryT0].filter (fun e => truthy e.path)).length :=
  getSummaryStats_counts_sums [entryFd7, entryProcA, entryT0] (by simp)

/-! ### C7: grouping by the (process, descriptor) pair -/

theorem pfInsert_keys (key : String) (ts : ℤ) (p : String)
    (m : List (String × List (String × PathInfo))) (k : String) :
    k ∈ (pfInsert key ts p m).map (fun q => q.1) ↔
      k = key ∨ k ∈ m.map (fun q => q.1) := by
  induction m with
  | nil => simp [pfInsert]
  | cons q rest ih =>
    by_cases h : q.1 = key
    · simp only [pfInsert]
      rw [if_pos h]
      simp only [List.map_cons, List.mem_cons, h]
      tauto
    · simp only [pfInsert]
      rw [if_neg h]
      simp only [List.map_cons, List.mem_cons, ih]
      tauto

/-- The fold body of `buildFdToPathsMap`. -/
def pfStep (acc : List (String × List (String × PathInfo))) (e : LogEntry) :
    List (String × List (String × PathInfo)) :=
  if truthy e.fileDescriptor && truthy e.path then
    pfInsert (pfKey e.process (e.fileDescriptor.getD "")) e.timestamp
      (e.path.getD "") acc
  else acc

theorem pfFold_keys_mono (E : List LogEntry) :
    ∀ m (k : String), k ∈ m.map (fun q => q.1) →
      k ∈ (E.foldl pfStep m).map (fun q => q.1) := by
  induction E with
  | nil => intro m k hk; simpa using hk
  | cons e rest ih =>
    intro m k hk
    simp only [List.foldl_cons]
    apply ih
    unfold pfStep
    by_cases h : truthy e.fileDescriptor && truthy e.path
    · rw [if_pos h]
      exact (pfInsert_keys _ _ _ m k).mpr (Or.inr hk)
    · rwa [if_neg h]

theorem pfFold_key_mem (E : List LogEntry) (e : LogEntry) (he : e ∈ E)
    (h1 : truthy e.fileDescriptor = true) (h2 : truthy e.path = true) :
    ∀ m, pfKey e.process (e.fileDescriptor.getD "") ∈
      (E.foldl pfStep m).map (fun q => q.1) := by
  induction E with
  | nil => simp at he
  | cons e0 rest ih =>
    intro m
    simp only [List.foldl_cons]
    rcases List.mem_cons.mp he with rfl | he2
    · apply pfFold_keys_mono
      unfold pfStep
      rw [if_pos (by simp [h1, h2])]
      exact (pfInsert_keys _ _ _ m _).mpr (Or.inl rfl)
    · exact ih he2 (pfStep m e0)

theorem buildFdToPathsMap_keys (E : List LogEntry) :
    (buildFdToPathsMap E).map (fun g => g.1) =
      (E.foldl pfStep []).map (fun q => q.1) := by
  unfold buildFdToPathsMap pfStep
  rw [List.map_map]
  rfl

theorem pfKey_right_cancel (p1 p2 d : String) (h : pfKey p1 d = pfKey p2 d) :
    p1 = p2 := by
  unfold pfKey at h
  have hd := congrArg String.data h
  simp only [String.data_append] at hd
  have h1 := List.append_cancel_right hd
  have h2 := List.append_cancel_right h1
  exact String.ext h2

/-- C7: two entries with the same (truthy) file descriptor but different
processes are never merged: their `process::fd` group keys differ and
both keys are present in `buildFdToPathsMap`'s result. -/
theorem buildFdToPathsMap_separates_processes (E : List LogEntry)
    (e1 e2 : LogEntry) (d : String)
    (h1 : e1 ∈ E) (h2 : e2 ∈ E)
    (hfd1 : e1.fileDescriptor = some d) (hfd2 : e2.fileDescriptor = some d)
    (hd : d ≠ "")
    (hp1 : truthy e1.path = true) (hp2 : truthy e2.path = true)
    (hproc : e1.process ≠ e2.process) :
    pfKey e1.process d ≠ pfKey e2.process d ∧
    pfKey e1.process d ∈ (buildFdToPathsMap E).map (fun g => g.1) ∧
    pfKey e2.process d ∈ (buildFdToPathsMap E).map (fun g => g.1) := by
  have ht1 : truthy e1.fileDescriptor = true := by simp [truthy, hfd1, hd]
  have ht2 : truthy e2.fileDescriptor = true := by simp [truthy, hfd2, hd]
  refine ⟨fun hk => hproc (pfKey_right_cancel _ _ _ hk), ?_, ?_⟩
  · rw [buildFdToPathsMap_keys]
    have := pfFold_key_mem E e1 h1 ht1 hp1 []
    rwa [hfd1] at this
  · rw [buildFdToPathsMap_keys]
    have := pfFold_key_mem E e2 h2 ht2 hp2 []
    rwa [hfd2] at this

/-- C7 witness: descriptor "5" shared by processes "A" and "B". -/
theorem buildFdToPathsMap_separates_processes_witness :
    pfKey "A" "5" ≠ pfKey "B" "5" ∧
    pfKey "A" "5" ∈ (buildFdToPathsMap [entryProcA, entryProcB]).map (fun g => g.1) ∧
    pfKey "B" "5" ∈ (buildFdToPathsMap [entryProcA, entryProcB]).map (fun g => g.1) :=
  buildFdToPathsMap_separates_processes [entryProcA, entryProcB]
    entryProcA entryProcB "5" (by simp) (by simp)
    (by decide) (by decide) (by decide) (by decide) (by decide) (by decide)

/-! ### C6: lossy fallback when the duration/process tail is missing -/

/-- C6: whenever a line passes the timestamp and operation stages but the
trailing `(\d+\.\d+)\s+([^\s]+)\s*$` pattern is not found, `parseLine`
still returns an entry (never null) with `duration = 0.0` and the
sentinel process `"unknown"`. -/
theorem parseLine_lossy_fallback (today : ℤ) (line ts op l2 : List Char)
    (hsplit : splitLine line = some (ts, op, l2))
    (hdur : durationMatch l2 = none) :
    ∃ e, parseLine today line = some e ∧ e.duration = 0 ∧ e.process = "unknown" := by
  refine ⟨mkEntry today ts op l2, ?_, ?_, ?_⟩
  · simp [parseLine, hsplit]
  · simp [mkEntry, hdur]
  · simp [mkEntry, hdur]

/-- C6 witness: a concrete line with a valid timestamp and operation but
no duration/process tail. -/
theorem parseLine_lossy_fallback_witness :
    ∃ e, parseLine 0 sampleLineNoTail = some e ∧
      e.duration = 0 ∧ e.process = "unknown" :=
  parseLine_lossy_fallback 0 sampleLineNoTail
    "01:02:03.4".data "open".data "/x".data (by decide) (by decide)

/-! ### C10: path extraction requires a following duration field -/

theorem hasDurPattern_of_suffix (l : List Char) :
    ∀ t, t <:+ l → durAnchorAt t = true → hasDurPattern l = true := by
  induction l with
  | nil =>
    intro t ht hd
    rw [List.suffix_nil.mp ht] at hd
    simp [durAnchorAt] at hd
  | cons c rest ih =>
    intro t ht hd
    obtain ⟨s, hs⟩ := ht
    cases s with
    | nil =>
      simp only [List.nil_append] at hs
      subst hs
      rw [hasDurPattern]
      simp [hd]
    | cons a s2 =>
      simp only [List.cons_append, List.cons.injEq] at hs
      rw [hasDurPattern]
      simp [ih t ⟨s2, hs.2⟩ hd]

theorem matchLazy_sound :
    ∀ (n : Nat) (t acc p : List Char), t.length ≤ n → matchLazy acc t = some p →
      ∃ u, u <:+ t ∧ matchAnchor u = true := by
  intro n
  induction n with
  | zero =>
    intro t acc p hle h
    have ht : t = [] := List.length_eq_zero.mp (Nat.le_zero.mp hle)
    subst ht
    rw [matchLazy.eq_def] at h
    simp [matchAnchor, durAnchorAt] at h
  | succ n ih =>
    intro t acc p hle h
    rw [matchLazy.eq_def] at h
    by_cases ha : matchAnchor t = true
    · exact ⟨t, List.suffix_refl t, ha⟩
    · rw [if_neg ha] at h
      by_cases hw : (t.takeWhile isJsSpace).isEmpty
      · rw [dif_pos hw] at h
        exact absurd h (by simp)
      · rw [dif_neg hw] at h
        by_cases hx : ((t.dropWhile isJsSpace).takeWhile
            (fun c => !isJsSpace c && c != '/')).isEmpty
        · rw [if_pos hx] at h
          exact absurd h (by simp)
        · rw [if_neg hx] at h
          have hlen : ((t.dropWhile isJsSpace).drop
              ((t.dropWhile isJsSpace).takeWhile
                (fun c => !isJsSpace c && c != '/')).length).length ≤ n := by
            have h1 := congrArg List.length (List.takeWhile_append_dropWhile isJsSpace t)
            simp only [List.length_append] at h1
            have hw1 : 0 < (List.takeWhile isJsSpace t).length := by
              simp only [List.isEmpty_iff] at hw
              rcases hm : List.takeWhile isJsSpace t with _ | ⟨a, as⟩
              · exact absurd hm hw
              · simp
            simp only [List.length_drop]
            omega
          obtain ⟨u, hu, hA⟩ := ih _ _ p hlen h
          exact ⟨u, hu.trans ((List.drop_suffix _ _).trans
            (List.dropWhile_suffix _)), hA⟩

theorem pathMatchCore_sound :
    ∀ (l p : List Char), pathMatchCore l = some p →
      ∃ u, u <:+ l ∧ matchAnchor u = true := by
  intro l
  induction l with
  | nil => intro p h; simp [pathMatchCore] at h
  | cons c rest ih =>
    intro p h
    rw [pathMatchCore] at h
    cases hm : (if runQualifies ((c :: rest).takeWhile (fun c => !isJsSpace c))
        then matchLazy ((c :: rest).takeWhile (fun c => !isJsSpace c))
          ((c :: rest).dropWhile (fun c => !isJsSpace c))
        else none) with
    | some q =>
      by_cases hq : runQualifies ((c :: rest).takeWhile (fun c => !isJsSpace c))
      · rw [if_pos hq] at hm
        obtain ⟨u, hu, hA⟩ := matchLazy_sound
          ((c :: rest).dropWhile (fun c => !isJsSpace c)).length
          ((c :: rest).dropWhile (fun c => !isJsSpace c))
          ((c :: rest).takeWhile (fun c => !isJsSpace c)) q (Nat.le_refl _) hm
        exact ⟨u, hu.trans (List.dropWhile_suffix _), hA⟩
      · rw [if_neg hq] at hm
        exact absurd hm (by simp)
    | none =>
      rw [hm] at h
      obtain ⟨u, hu, hA⟩ := ih p h
      exact ⟨u, hu.trans (List.suffix_cons c rest), hA⟩

theorem hasDurPattern_of_anchor (l u : List Char) (hu : u <:+ l)
    (h : matchAnchor u = true) : hasDurPattern l = true := by
  unfold matchAnchor at h
  simp only [Bool.and_eq_true] at h
  have hd : durAnchorAt (u.dropWhile isJsSpace) = true := h.2
  exact hasDurPattern_of_suffix l _ ((List.dropWhile_suffix _).trans hu) hd

/-- C10: if the decimal-duration pattern `\d+\.\d+` followed by
whitespace occurs nowhere in the text after the operation token, the path
regex cannot match (its uncaptured tail requires that pattern), so the
returned entry's `path` is null — even if the text contains a
`/`-prefixed segment. -/
theorem parseLine_path_null_without_duration (today : ℤ)
    (line ts op l2 : List Char)
    (hsplit : splitLine line = some (ts, op, l2))
    (hno : hasDurPattern l2 = false) :
    ∃ e, parseLine today line = some e ∧ e.path = none := by
  refine ⟨mkEntry today ts op l2, by simp [parseLine, hsplit], ?_⟩
  cases hp : pathMatchCore l2 with
  | none => simp [mkEntry, hp]
  | some q =>
    obtain ⟨u, hu, hA⟩ := pathMatchCore_sound l2 q hp
    rw [hasDurPattern_of_anchor l2 u hu hA] at hno
    exact absurd hno (by simp)

/-- C10 witness: `"01:02:03.4 open /x"` contains a slash-prefixed segment
but no duration pattern after the operation token; the parsed path is
null. -/
theorem parseLine_path_null_without_duration_witness :
    ∃ e, parseLine 0 sampleLineNoTail = some e ∧ e.path = none :=
  parseLine_path_null_without_duration 0 sampleLineNoTail
    "01:02:03.4".data "open".data "/x".data (by decide) (by decide)
